import Mathlib

/-!
Verification of the smart-buyer agent runtime.

Shallow embedding of the core components of the repository:
* the policy engine (`packages/control_plane/control_plane/policy.py`),
* the decision scoring module (`packages/decision_core/decision_core/scoring.py`)
  and the decision tool's Pareto filter (`packages/tools/tools/decision_tool.py`),
* the planner's plan post-processing (`packages/agent_core/agent_core/planner.py`),
* the offer-fusion engine (`packages/search_core/search_core/ecommerce/price_compare.py`),
* the price-compare tool's circuit breaker (`packages/tools/tools/price_compare_tool.py`),
* the agent execution state (`packages/agent_core/agent_core/models.py`).

Modelling conventions: Python floats are embedded as `ℚ` (only ordering,
addition and division by a non-zero total are relied on); Python dicts are
embedded as insertion-ordered association lists; Python `set`s as `Finset`;
raising an exception is `Except.error`.  Network / async I/O (the LLM call,
the site-adapter fan-out) is a parameter of the embedded function, never
modelled itself.
-/

namespace SmartBuyer

/-- Python dict assignment `d[k] = v` on an insertion-ordered association
list: replaces the value at the first occurrence of `k`, else appends. -/
def setAssoc {α : Type} (l : List (String × α)) (k : String) (v : α) :
    List (String × α) :=
  match l with
  | [] => [(k, v)]
  | (k', v') :: rest =>
      if k' = k then (k, v) :: rest else (k', v') :: setAssoc rest k v

/-- `d.get(k)` on an association list. -/
def getAssoc {α : Type} (l : List (String × α)) (k : String) : Option α :=
  match l with
  | [] => none
  | (k', v') :: rest => if k' = k then some v' else getAssoc rest k

theorem getAssoc_setAssoc_self {α : Type} (l : List (String × α)) (k : String) (v : α) :
    getAssoc (setAssoc l k v) k = some v := by
  induction l with
  | nil => simp [setAssoc, getAssoc]
  | cons p rest ih =>
      obtain ⟨k', v'⟩ := p
      by_cases h : k' = k
      · simp [setAssoc, getAssoc, h]
      · simp [setAssoc, getAssoc, h, ih]

theorem getAssoc_setAssoc_ne {α : Type} (l : List (String × α)) (k k' : String) (v : α)
    (h : k' ≠ k) : getAssoc (setAssoc l k v) k' = getAssoc l k' := by
  induction l with
  | nil => simp [setAssoc, getAssoc, Ne.symm h]
  | cons p rest ih =>
      obtain ⟨k0, v0⟩ := p
      by_cases h0 : k0 = k
      · subst h0
        simp [setAssoc, getAssoc, Ne.symm h, fun hh : k0 = k' => h (hh.symm)]
      · simp only [setAssoc, getAssoc, if_neg h0]
        by_cases h1 : k0 = k'
        · simp [h1]
        · simp [h1, ih]

/-! ## Policy engine (`control_plane/policy.py`)

`GlobalPolicy`, `RolePolicy`, `OrgPolicy`, `SkillDefinition`, `PolicyStore`
are the pydantic models of `policy.py`; fields that no verified operation
reads (`max_tools_per_request`, `enforce_input_schema`, …) are omitted. -/

structure GlobalPolicy where
  default_allowed_tools : Finset String
  default_blocked_tools : Finset String
deriving DecidableEq

structure QuotaLimits where
  daily_calls : Option Nat
  per_tool_daily : List (String × Nat)
  daily_llm_tokens : Option Int
deriving DecidableEq

structure RolePolicy where
  name : String
  allowed_tools : Finset String
  blocked_tools : Finset String
  allowed_skills : Finset String
deriving DecidableEq

structure OrgPolicy where
  org_id : String
  enabled_skills : Finset String
  allowed_tools : Finset String
  blocked_tools : Finset String
  roles : List (String × RolePolicy)
  quotas : QuotaLimits
deriving DecidableEq

structure SkillDefinition where
  name : String
  tools : Finset String
deriving DecidableEq

structure PolicyStore where
  global_policy : GlobalPolicy
  orgs : List (String × OrgPolicy)
  skills : List (String × SkillDefinition)
deriving DecidableEq

/-- A request context: `org_id` and `metadata["role"]`.  Python treats the
empty string like a missing value (`ctx.org_id or "default"`,
`if not role_name`). -/
structure RequestContext where
  org_id : Option String
  user_id : Option String
  role : Option String
deriving DecidableEq

/-- `OrgPolicy(org_id=org_id)`: the all-default org policy. -/
def emptyOrgPolicy (oid : String) : OrgPolicy :=
  { org_id := oid, enabled_skills := ∅, allowed_tools := ∅, blocked_tools := ∅,
    roles := [], quotas := { daily_calls := none, per_tool_daily := [], daily_llm_tokens := none } }

/-- `PolicyEngine._resolve_org_policy`. -/
def resolveOrgPolicy (store : PolicyStore) (ctx : RequestContext) : OrgPolicy :=
  let oid := match ctx.org_id with
    | none => "default"
    | some s => if s = "" then "default" else s
  (getAssoc store.orgs oid).getD (emptyOrgPolicy oid)

/-- `PolicyEngine._resolve_role_policy`. -/
def resolveRolePolicy (org : OrgPolicy) (ctx : RequestContext) : Option RolePolicy :=
  match ctx.role with
  | none => none
  | some r => if r = "" then none else getAssoc org.roles r

/-- `PolicyEngine._tools_from_skills`, generalised to any skill-name set
(the code uses it on `org.enabled_skills` and on `role.allowed_skills`). -/
def toolsFromSkills (store : PolicyStore) (skillNames : Finset String) : Finset String :=
  skillNames.biUnion fun n =>
    match getAssoc store.skills n with
    | some sk => sk.tools
    | none => ∅

/-- `PolicyEngine._compute_allowed_tools`. -/
def computeAllowedTools (store : PolicyStore) (org : OrgPolicy)
    (role : Option RolePolicy) : Finset String :=
  let g := store.global_policy
  let allowed := g.default_allowed_tools ∪ org.allowed_tools ∪
    toolsFromSkills store org.enabled_skills
  let allowed := match role with
    | some r => allowed ∪ r.allowed_tools ∪ toolsFromSkills store r.allowed_skills
    | none => allowed
  let blocked := g.default_blocked_tools ∪ org.blocked_tools
  let blocked := match role with
    | some r => blocked ∪ r.blocked_tools
    | none => blocked
  allowed \ blocked

/-- `PolicyEngine.validate_tool_allowed`: raises `PermissionError` exactly
when the tool name is not in the computed allowed set. -/
def validateToolAllowed (store : PolicyStore) (toolName : String)
    (ctx : RequestContext) : Except String Unit :=
  let org := resolveOrgPolicy store ctx
  let role := resolveRolePolicy org ctx
  if toolName ∈ computeAllowedTools store org role then Except.ok ()
  else Except.error ("Tool '" ++ toolName ++ "' is not allowed")

/-- The allowed-tool set exactly as the specification words it:
(global default ∪ org allow ∪ tools of the org's enabled skills ∪ role allow
∪ tools of the role's allowed skills) − (global block ∪ org block ∪ role
block), the role sets being empty when no role policy resolves. -/
def specAllowedSet (store : PolicyStore) (org : OrgPolicy)
    (role : Option RolePolicy) : Finset String :=
  (store.global_policy.default_allowed_tools ∪ org.allowed_tools ∪
      toolsFromSkills store org.enabled_skills ∪
      (role.elim ∅ RolePolicy.allowed_tools) ∪
      (role.elim ∅ fun r => toolsFromSkills store r.allowed_skills)) \
    (store.global_policy.default_blocked_tools ∪ org.blocked_tools ∪
      (role.elim ∅ RolePolicy.blocked_tools))

theorem computeAllowedTools_eq_spec (store : PolicyStore) (org : OrgPolicy)
    (role : Option RolePolicy) :
    computeAllowedTools store org role = specAllowedSet store org role := by
  ext x
  cases role with
  | none =>
      simp only [computeAllowedTools, specAllowedSet, Option.elim,
        Finset.mem_sdiff, Finset.mem_union, Finset.not_mem_empty]
      tauto
  | some r =>
      simp only [computeAllowedTools, specAllowedSet, Option.elim,
        Finset.mem_sdiff, Finset.mem_union]

/-- C1.  The policy engine permits a tool if and only if its name lies in
(global default allowed ∪ org allowed ∪ tools of the org's enabled skills ∪
role allowed ∪ tools of the role's allowed skills) minus
(global blocked ∪ org blocked ∪ role blocked), for the org and role policies
resolved from the request context; `validate_tool_allowed` raises exactly
when the name is absent from that set. -/
theorem policy_allowed_iff (store : PolicyStore) (ctx : RequestContext)
    (toolName : String) :
    validateToolAllowed store toolName ctx = Except.ok () ↔
      toolName ∈ specAllowedSet store (resolveOrgPolicy store ctx)
        (resolveRolePolicy (resolveOrgPolicy store ctx) ctx) := by
  simp only [validateToolAllowed, computeAllowedTools_eq_spec]
  split <;> simp_all

/-! ## Quota check (`PolicyEngine.validate_quota`, `InMemoryUsageTracker.increment`) -/

/-- `UsageSnapshot` for one (org, user, day). -/
structure UsageSnapshot where
  total_calls : Nat
  per_tool_calls : List (String × Nat)
  total_llm_tokens : Int
deriving DecidableEq

/-- `InMemoryUsageTracker.increment` on today's snapshot. -/
def incrementUsage (usage : UsageSnapshot) (toolName : String)
    (tokens_used : Int) : UsageSnapshot :=
  { total_calls := usage.total_calls + 1,
    total_llm_tokens := usage.total_llm_tokens + max tokens_used 0,
    per_tool_calls :=
      setAssoc usage.per_tool_calls toolName
        ((getAssoc usage.per_tool_calls toolName).getD 0 + 1) }

/-- `PolicyEngine.validate_quota`: the three sequential cap checks followed
by the increment.  `Except.ok` carries the incremented snapshot (the
tracker's new state); `Except.error` means the `RuntimeError` was raised
before any increment. -/
def validateQuota (limits : QuotaLimits) (usage : UsageSnapshot)
    (toolName : String) (tokens_used : Int) : Except String UsageSnapshot :=
  if (limits.daily_calls.map fun dc => decide (dc ≤ usage.total_calls)).getD false then
    Except.error "Daily tool-call quota exceeded"
  else if (limits.daily_llm_tokens.map
      fun cap => decide (cap < usage.total_llm_tokens + tokens_used)).getD false then
    Except.error "Daily LLM token quota exceeded"
  else if (getAssoc limits.per_tool_daily toolName
      |>.map fun m => decide (m ≤ (getAssoc usage.per_tool_calls toolName).getD 0)).getD false then
    Except.error ("Daily quota exceeded for tool '" ++ toolName ++ "'")
  else
    Except.ok (incrementUsage usage toolName tokens_used)

/-- The usage snapshot the tracker holds after the check: unchanged when the
check raised, incremented when it passed. -/
def usageAfterQuota (limits : QuotaLimits) (usage : UsageSnapshot)
    (toolName : String) (tokens_used : Int) : UsageSnapshot :=
  match validateQuota limits usage toolName tokens_used with
  | Except.ok u => u
  | Except.error _ => usage

/-- C4.  The quota check denies exactly when the daily-call cap, the
daily-token cap, or the tool's per-tool daily cap would be exceeded, and the
counters are incremented if and only if the check does not deny: on denial
the snapshot is unchanged, on success it is the incremented snapshot
(atomic check-and-increment). -/
theorem validateQuota_check_and_increment (limits : QuotaLimits)
    (usage : UsageSnapshot) (toolName : String) (tokens_used : Int) :
    ((∃ e, validateQuota limits usage toolName tokens_used = Except.error e) ↔
      ((∃ dc, limits.daily_calls = some dc ∧ dc ≤ usage.total_calls) ∨
       (∃ cap, limits.daily_llm_tokens = some cap ∧
          cap < usage.total_llm_tokens + tokens_used) ∨
       (∃ m, getAssoc limits.per_tool_daily toolName = some m ∧
          m ≤ (getAssoc usage.per_tool_calls toolName).getD 0))) ∧
    (validateQuota limits usage toolName tokens_used =
        Except.ok (incrementUsage usage toolName tokens_used) ∨
      usageAfterQuota limits usage toolName tokens_used = usage) ∧
    (∀ u, validateQuota limits usage toolName tokens_used = Except.ok u →
      u = incrementUsage usage toolName tokens_used) := by
  refine ⟨?_, ?_, ?_⟩
  · unfold validateQuota
    rcases limits.daily_calls with _ | dc <;>
      rcases hm : limits.daily_llm_tokens with _ | cap <;>
      rcases hp : getAssoc limits.per_tool_daily toolName with _ | m <;>
      simp [hm, hp] <;> split_ifs <;> simp_all
  · unfold usageAfterQuota
    rcases h : validateQuota limits usage toolName tokens_used with e | u
    · right; rfl
    · left
      unfold validateQuota at h
      split_ifs at h <;> simp_all [validateQuota]
  · intro u h
    unfold validateQuota at h
    split_ifs at h <;> simp_all

/-- Instance of the claim's scenario: a tool at its per-tool daily cap is
denied even though total daily-call capacity remains, and the snapshot is
unchanged. -/
theorem validateQuota_per_tool_scenario :
    (∃ e, validateQuota
        { daily_calls := some 100, per_tool_daily := [("price_compare", 2)],
          daily_llm_tokens := none }
        { total_calls := 5, per_tool_calls := [("price_compare", 2)],
          total_llm_tokens := 0 }
        "price_compare" 0 = Except.error e) := by
  simp [validateQuota, getAssoc]

/-! ## Decision scoring (`decision_core/scoring.py`) -/

/-- `Criterion` dataclass. -/
structure Criterion where
  name : String
  weight : ℚ
  maximize : Bool
  description : Option String
deriving DecidableEq

/-- An option is a dict; the scoring and Pareto paths only read numeric
criterion values, so it is embedded as a rational-valued association list
(a key that is absent models both a missing and a non-numeric value). -/
abbrev OptionData := List (String × ℚ)

/-- `Scoring._validate_criteria`: weights are rescaled only when their sum
falls outside `[0.99, 1.01]`; an all-zero (more generally, zero-sum) weight
list then divides by zero, which raises in Python (`Except.error`). -/
def validateCriteria (criteria : List Criterion) : Except String (List Criterion) :=
  if criteria.isEmpty then Except.ok criteria
  else
    let total := (criteria.map Criterion.weight).sum
    if 99/100 ≤ total ∧ total ≤ 101/100 then Except.ok criteria
    else if total = 0 then Except.error "ZeroDivisionError"
    else Except.ok (criteria.map fun c => { c with weight := c.weight / total })

/-- `Scoring._normalize_value`: negatives clamp to 0, values above 1 are
divided by 100 and capped at 1, the rest pass through. -/
def normalizeValue (v : ℚ) : ℚ :=
  if v < 0 then 0
  else if 1 < v then min (v / 100) 1
  else v

/-- The per-criterion "normalized_value" that `Scoring.score_option`
computes for one option: `option.get(name, 0)`, normalized when requested,
inverted (`1 - value`) for a minimize criterion. -/
def criterionScore (c : Criterion) (opt : OptionData) (normalize : Bool) : ℚ :=
  let v := (getAssoc opt c.name).getD 0
  let v := if normalize then normalizeValue v else v
  if c.maximize then v else 1 - v

/-- `Scoring.score_option`'s total score: the weighted sum of the
per-criterion scores. -/
def scoreOption (criteria : List Criterion) (opt : OptionData)
    (normalize : Bool) : ℚ :=
  (criteria.map fun c => criterionScore c opt normalize * c.weight).sum

/-- A scored option as `Scoring.score_options` returns it (rank is the
1-based position in the sorted list). -/
structure ScoredOption where
  option : OptionData
  total_score : ℚ
deriving DecidableEq

/-- Descending order on scored options: `a` may precede `b` when
`b.total_score ≤ a.total_score` (the order of Python's stable
`list.sort(key=total_score, reverse=True)`). -/
def scoredGe (a b : ScoredOption) : Prop := b.total_score ≤ a.total_score

instance : DecidableRel scoredGe := fun a b =>
  inferInstanceAs (Decidable (b.total_score ≤ a.total_score))

instance : IsTotal ScoredOption scoredGe :=
  ⟨fun a b => le_total b.total_score a.total_score⟩

instance : IsTrans ScoredOption scoredGe :=
  ⟨fun _ _ _ h1 h2 => le_trans h2 h1⟩

/-- `Scoring.score_options`: score every option, then stable-sort by total
score descending.  A stable sort's output is determined by the order alone
together with stability, so Python's Timsort is embedded as stable insertion
sort under `scoredGe`. -/
def scoreOptions (criteria : List Criterion) (options : List OptionData)
    (normalize : Bool) : List ScoredOption :=
  (options.map fun o =>
      ScoredOption.mk o (scoreOption criteria o normalize)).insertionSort scoredGe

/-- C2 counterexample.  With weights `[0.5, 0.495]` the sum `0.995` lies
inside the code's `[0.99, 1.01]` band, so `_validate_criteria` leaves the
weights untouched and they do not sum to `1 ± 1e-6`; and with all-zero
weights the code divides by zero instead of falling back to a uniform
distribution. -/
theorem validateCriteria_claim_counterexample :
    validateCriteria
        [⟨"a", 1/2, true, none⟩, ⟨"b", 99/200, true, none⟩] =
      Except.ok [⟨"a", 1/2, true, none⟩, ⟨"b", 99/200, true, none⟩] ∧
    ¬ |((1:ℚ)/2 + 99/200) - 1| ≤ 1/1000000 ∧
    validateCriteria [⟨"a", 0, true, none⟩, ⟨"b", 0, true, none⟩] =
      Except.error "ZeroDivisionError" := by
  refine ⟨?_, ?_, ?_⟩
  · simp [validateCriteria]
    norm_num
  · rw [abs_le]
    norm_num
  · simp [validateCriteria]

theorem sum_map_weight_div (l : List Criterion) (t : ℚ) :
    (l.map fun c => c.weight / t).sum = (l.map Criterion.weight).sum / t := by
  induction l with
  | nil => simp
  | cons c cs ih => simp [ih, add_div]

/-- C2 (amended).  For every non-empty criteria list with non-zero total
weight, `_validate_criteria` succeeds and the resulting weights sum to 1
within 0.01 (the code's `[0.99, 1.01]` acceptance band, not 1e-6); when the
original total lies outside that band the rescaled weights sum to exactly 1.
A zero-total (in particular all-zero) list instead raises a division-by-zero
error — there is no uniform fallback
(`validateCriteria_claim_counterexample`). -/
theorem validateCriteria_weight_sum (criteria : List Criterion)
    (hne : criteria ≠ []) (h0 : (criteria.map Criterion.weight).sum ≠ 0) :
    ∃ out, validateCriteria criteria = Except.ok out ∧
      |(out.map Criterion.weight).sum - 1| ≤ 1/100 ∧
      (¬ (99/100 ≤ (criteria.map Criterion.weight).sum ∧
          (criteria.map Criterion.weight).sum ≤ 101/100) →
        (out.map Criterion.weight).sum = 1) := by
  unfold validateCriteria
  rw [if_neg (by simpa [List.isEmpty_iff] using hne)]
  by_cases hband : 99/100 ≤ (criteria.map Criterion.weight).sum ∧
      (criteria.map Criterion.weight).sum ≤ 101/100
  · refine ⟨criteria, by rw [if_pos hband], ?_, fun h => absurd hband h⟩
    rw [abs_le]
    constructor <;> linarith [hband.1, hband.2]
  · rw [if_neg hband, if_neg h0]
    refine ⟨_, rfl, ?_, fun _ => ?_⟩ <;>
      simp [List.map_map, Function.comp_def, sum_map_weight_div, div_self h0]

theorem validateCriteria_weight_sum_witness :
    ∃ out, validateCriteria [⟨"a", 2, true, none⟩] = Except.ok out ∧
      |(out.map Criterion.weight).sum - 1| ≤ 1/100 ∧
      (¬ (99/100 ≤ ([⟨"a", 2, true, none⟩].map Criterion.weight).sum ∧
          (([⟨"a", 2, true, none⟩] : List Criterion).map Criterion.weight).sum ≤ 101/100) →
        (out.map Criterion.weight).sum = 1) :=
  validateCriteria_weight_sum [⟨"a", 2, true, none⟩] (by decide) (by norm_num)

theorem normalizeValue_mono_of_le_one {v w : ℚ} (hvw : v ≤ w) (hw : w ≤ 1) :
    normalizeValue v ≤ normalizeValue w := by
  unfold normalizeValue
  split_ifs <;> first
    | linarith
    | simp_all

/-- C6 (amended).  For a minimize criterion, among options whose raw values
for the criterion are present and at most 1 (so that the placeholder
normalization is monotone), a smaller raw value yields a per-criterion
normalized score at least as high; in general the normalization is not
monotone across 1 and the claim fails (`minimize_claim_counterexample`). -/
theorem minimize_smaller_raw_higher_score (c : Criterion)
    (hmin : c.maximize = false) (o1 o2 : OptionData) (v1 v2 : ℚ)
    (h1 : getAssoc o1 c.name = some v1) (h2 : getAssoc o2 c.name = some v2)
    (hle : v1 ≤ v2) (hb : v2 ≤ 1) :
    criterionScore c o2 true ≤ criterionScore c o1 true := by
  have := normalizeValue_mono_of_le_one hle hb
  simp only [criterionScore, h1, h2, hmin, Option.getD_some, if_true,
    Bool.false_eq_true, if_false]
  linarith

theorem minimize_smaller_raw_higher_score_witness :
    criterionScore ⟨"price", 1, false, none⟩ [("price", 1/2)] true ≤
      criterionScore ⟨"price", 1, false, none⟩ [("price", 1/4)] true :=
  minimize_smaller_raw_higher_score ⟨"price", 1, false, none⟩ rfl
    [("price", 1/4)] [("price", 1/2)] (1/4) (1/2)
    (by simp [getAssoc]) (by simp [getAssoc]) (by norm_num) (by norm_num)

/-- C6 counterexample.  For the minimize criterion "price" the option with
raw value 1 (the smallest) scores 0, strictly below the option with raw
value 1.5, whose value normalizes to 0.015 and scores 0.985: the smallest
valid raw value does not receive the highest per-criterion score. -/
theorem minimize_claim_counterexample :
    getAssoc [(("price" : String), (1:ℚ))] "price" = some 1 ∧
    getAssoc [(("price" : String), (3/2:ℚ))] "price" = some (3/2) ∧
    (1:ℚ) < 3/2 ∧
    criterionScore ⟨"price", 1, false, none⟩ [("price", 1)] true <
      criterionScore ⟨"price", 1, false, none⟩ [("price", 3/2)] true := by
  refine ⟨by simp [getAssoc], by simp [getAssoc], by norm_num, ?_⟩
  norm_num [criterionScore, getAssoc, normalizeValue, min_def]

/-! ## Pareto filter and decision winner (`tools/decision_tool.py`) -/

/-- The inner loop of `_pareto_filter.dominates`: walk the criteria,
skipping pairs with an unknown value, failing as soon as option `oi` is
strictly worse on a known pair, and accumulating whether `oi` was strictly
better at least once. -/
def dominatesGo (oi oj : OptionData) :
    List Criterion → Bool → Bool
  | [], strict => strict
  | c :: cs, strict =>
      match getAssoc oi c.name, getAssoc oj c.name with
      | some vi, some vj =>
          if c.maximize then
            if vi < vj then false
            else dominatesGo oi oj cs (strict || decide (vj < vi))
          else
            if vj < vi then false
            else dominatesGo oi oj cs (strict || decide (vi < vj))
      | _, _ => dominatesGo oi oj cs strict

/-- `dominates(i, j)` of `_pareto_filter`: `oi` is at least as good as `oj`
on every known-value criterion and strictly better on at least one. -/
def dominates (criteria : List Criterion) (oi oj : OptionData) : Bool :=
  dominatesGo oi oj criteria false

/-- One step of the inner `for j` loop of `_pareto_filter`. -/
def paretoInnerStep (criteria : List Criterion) (options : List OptionData)
    (i : Nat) (keep : List Bool) (j : Nat) : List Bool :=
  if i = j then keep
  else if keep.getD j true = false then keep
  else if dominates criteria (options.getD i []) (options.getD j []) then
    keep.set j false
  else keep

/-- One step of the outer `for i` loop of `_pareto_filter`. -/
def paretoOuterStep (criteria : List Criterion) (options : List OptionData)
    (keep : List Bool) (i : Nat) : List Bool :=
  if keep.getD i true = false then keep
  else (List.range options.length).foldl (paretoInnerStep criteria options i) keep

/-- `_pareto_filter`: indices of the non-dominated options (all indices when
`n ≤ 2` or there are no criteria). -/
def paretoFilter (criteria : List Criterion) (options : List OptionData) :
    List Nat :=
  let n := options.length
  if n ≤ 2 ∨ criteria.length = 0 then List.range n
  else
    let keep := (List.range n).foldl (paretoOuterStep criteria options)
      (List.replicate n true)
    (List.range n).filter fun idx => keep.getD idx true

/-- The candidates `DecisionTool.call` scores: the Pareto-surviving options
when the filter is enabled and there are at least 3 options and 2 criteria,
otherwise all options. -/
def decisionCandidates (criteria : List Criterion) (options : List OptionData)
    (enablePareto : Bool) : List OptionData :=
  if enablePareto ∧ 3 ≤ options.length ∧ 2 ≤ criteria.length then
    (paretoFilter criteria options).filterMap fun i => options[i]?
  else options

/-- The rank-1 option of `DecisionTool.call`: head of the candidates scored
and sorted by total score descending (`_normalize_option_scores` re-sorts
the already-sorted list stably, so rank 1 is the head of
`score_options`). -/
def decisionWinner (criteria : List Criterion) (options : List OptionData)
    (enablePareto : Bool) : Option OptionData :=
  (scoreOptions criteria (decisionCandidates criteria options enablePareto)
      true).head?.map ScoredOption.option

theorem dominatesGo_pointwise (oi oj : OptionData) :
    ∀ (cs : List Criterion) (b : Bool), dominatesGo oi oj cs b = true →
      ∀ c ∈ cs, ∀ vi vj, getAssoc oi c.name = some vi →
        getAssoc oj c.name = some vj →
        (c.maximize = true → vj ≤ vi) ∧ (c.maximize = false → vi ≤ vj) := by
  intro cs
  induction cs with
  | nil => intro b _ c hc; simp at hc
  | cons c0 cs ih =>
      intro b h c hc vi vj hvi hvj
      unfold dominatesGo at h
      rcases hoi : getAssoc oi c0.name with _ | vi0 <;>
        rcases hoj : getAssoc oj c0.name with _ | vj0 <;>
        simp only [hoi, hoj] at h
      · rcases List.mem_cons.mp hc with rfl | hc
        · rw [hoi] at hvi; exact absurd hvi (by simp)
        · exact ih _ h c hc vi vj hvi hvj
      · rcases List.mem_cons.mp hc with rfl | hc
        · rw [hoi] at hvi; exact absurd hvi (by simp)
        · exact ih _ h c hc vi vj hvi hvj
      · rcases List.mem_cons.mp hc with rfl | hc
        · rw [hoj] at hvj; exact absurd hvj (by simp)
        · exact ih _ h c hc vi vj hvi hvj
      · by_cases hcm : c0.maximize = true
        · rw [if_pos hcm] at h
          by_cases hlt : vi0 < vj0
          · rw [if_pos hlt] at h; exact absurd h (by simp)
          · rw [if_neg hlt] at h
            rcases List.mem_cons.mp hc with rfl | hc
            · rw [hoi] at hvi; rw [hoj] at hvj
              obtain rfl : vi0 = vi := by injection hvi
              obtain rfl : vj0 = vj := by injection hvj
              refine ⟨fun _ => not_lt.mp hlt, fun hm => ?_⟩
              rw [hm] at hcm; exact absurd hcm (by simp)
            · exact ih _ h c hc vi vj hvi hvj
        · rw [if_neg hcm] at h
          by_cases hlt : vj0 < vi0
          · rw [if_pos hlt] at h; exact absurd h (by simp)
          · rw [if_neg hlt] at h
            rcases List.mem_cons.mp hc with rfl | hc
            · rw [hoi] at hvi; rw [hoj] at hvj
              obtain rfl : vi0 = vi := by injection hvi
              obtain rfl : vj0 = vj := by injection hvj
              refine ⟨fun hm => absurd hm hcm, fun _ => not_lt.mp hlt⟩
            · exact ih _ h c hc vi vj hvi hvj

theorem dominatesGo_exists_strict (oi oj : OptionData) :
    ∀ (cs : List Criterion) (b : Bool), dominatesGo oi oj cs b = true →
      b = true ∨ ∃ c ∈ cs, ∃ vi vj, getAssoc oi c.name = some vi ∧
        getAssoc oj c.name = some vj ∧
        ((c.maximize = true ∧ vj < vi) ∨ (c.maximize = false ∧ vi < vj)) := by
  intro cs
  induction cs with
  | nil => intro b h; left; simpa [dominatesGo] using h
  | cons c0 cs ih =>
      intro b h
      unfold dominatesGo at h
      rcases hoi : getAssoc oi c0.name with _ | vi0 <;>
        rcases hoj : getAssoc oj c0.name with _ | vj0 <;>
        simp only [hoi, hoj] at h
      · exact (ih _ h).imp id fun ⟨c, hc, rest⟩ => ⟨c, List.mem_cons_of_mem _ hc, rest⟩
      · exact (ih _ h).imp id fun ⟨c, hc, rest⟩ => ⟨c, List.mem_cons_of_mem _ hc, rest⟩
      · exact (ih _ h).imp id fun ⟨c, hc, rest⟩ => ⟨c, List.mem_cons_of_mem _ hc, rest⟩
      · by_cases hcm : c0.maximize = true
        · rw [if_pos hcm] at h
          by_cases hlt : vi0 < vj0
          · rw [if_pos hlt] at h; exact absurd h (by simp)
          · rw [if_neg hlt] at h
            rcases ih _ h with hb | ⟨c, hc, rest⟩
            · rcases Bool.or_eq_true_iff.mp hb with hb | hs
              · exact Or.inl hb
              · exact Or.inr ⟨c0, List.mem_cons_self _ _,
                  vi0, vj0, hoi, hoj, Or.inl ⟨hcm, of_decide_eq_true hs⟩⟩
            · exact Or.inr ⟨c, List.mem_cons_of_mem _ hc, rest⟩
        · rw [if_neg hcm] at h
          by_cases hlt : vj0 < vi0
          · rw [if_pos hlt] at h; exact absurd h (by simp)
          · rw [if_neg hlt] at h
            rcases ih _ h with hb | ⟨c, hc, rest⟩
            · rcases Bool.or_eq_true_iff.mp hb with hb | hs
              · exact Or.inl hb
              · exact Or.inr ⟨c0, List.mem_cons_self _ _,
                  vi0, vj0, hoi, hoj,
                  Or.inr ⟨Bool.not_eq_true _ ▸ (Bool.eq_false_iff.mpr hcm),
                    of_decide_eq_true hs⟩⟩
            · exact Or.inr ⟨c, List.mem_cons_of_mem _ hc, rest⟩

theorem dominatesGo_self (o : OptionData) :
    ∀ (cs : List Criterion) (b : Bool), dominatesGo o o cs b = b := by
  intro cs
  induction cs with
  | nil => intro b; rfl
  | cons c0 cs ih =>
      intro b
      unfold dominatesGo
      rcases ho : getAssoc o c0.name with _ | v
      · simp only [ho]
        exact ih b
      · simp only [ho]
        by_cases hcm : c0.maximize = true <;> simp [hcm, ih]

/-- An option never dominates itself. -/
theorem dominates_self (criteria : List Criterion) (o : OptionData) :
    dominates criteria o o = false := by
  simp [dominates, dominatesGo_self]

/-- An option with no attributes at all dominates nothing (every pair has an
unknown value). -/
theorem dominates_nil_left (criteria : List Criterion) (o : OptionData) :
    dominates criteria [] o = false := by
  unfold dominates
  have : ∀ (cs : List Criterion) (b : Bool), dominatesGo [] o cs b = b := by
    intro cs
    induction cs with
    | nil => intro b; rfl
    | cons c0 cs ih => intro b; unfold dominatesGo; simp [getAssoc, ih b]
  simp [this]

/-- Dominance is asymmetric. -/
theorem dominates_asymm (criteria : List Criterion) (oi oj : OptionData)
    (h : dominates criteria oi oj = true) : dominates criteria oj oi = false := by
  by_contra hc
  rw [Bool.not_eq_false] at hc
  rcases dominatesGo_exists_strict oi oj criteria false h with h0 | hstrict
  · exact absurd h0 (by simp)
  obtain ⟨c, hcmem, vi, vj, hvi, hvj, hs⟩ := hstrict
  have hpt := dominatesGo_pointwise oj oi criteria false hc c hcmem vj vi hvj hvi
  rcases hs with ⟨hmax, hlt⟩ | ⟨hmin, hlt⟩
  · have := hpt.1 hmax; linarith
  · have := hpt.2 hmin; linarith

theorem normalizeValue_of_unit {v : ℚ} (h0 : 0 ≤ v) (h1 : v ≤ 1) :
    normalizeValue v = v := by
  unfold normalizeValue
  split_ifs <;> linarith

theorem criterionScore_of_getAssoc {c : Criterion} {opt : OptionData} {v : ℚ}
    (h : getAssoc opt c.name = some v) (h0 : 0 ≤ v) (h1 : v ≤ 1) :
    criterionScore c opt true = if c.maximize then v else 1 - v := by
  simp [criterionScore, h, normalizeValue_of_unit h0 h1]

/-- With every criterion value known and inside `[0, 1]` and every weight
positive, a dominated option scores strictly below its dominator. -/
theorem scoreOption_lt_of_dominates (criteria : List Criterion)
    (d o : OptionData)
    (hvd : ∀ c ∈ criteria, ∃ v, getAssoc d c.name = some v ∧ 0 ≤ v ∧ v ≤ 1)
    (hvo : ∀ c ∈ criteria, ∃ v, getAssoc o c.name = some v ∧ 0 ≤ v ∧ v ≤ 1)
    (hw : ∀ c ∈ criteria, 0 < c.weight)
    (hdom : dominates criteria d o = true) :
    scoreOption criteria o true < scoreOption criteria d true := by
  unfold scoreOption
  apply List.sum_lt_sum
  · intro c hc
    obtain ⟨vd, hvd1, hvd2, hvd3⟩ := hvd c hc
    obtain ⟨vo, hvo1, hvo2, hvo3⟩ := hvo c hc
    have hpt := dominatesGo_pointwise d o criteria false hdom c hc vd vo hvd1 hvo1
    rw [criterionScore_of_getAssoc hvo1 hvo2 hvo3,
      criterionScore_of_getAssoc hvd1 hvd2 hvd3]
    have hwc := hw c hc
    by_cases hcm : c.maximize = true
    · have := hpt.1 hcm
      rw [if_pos hcm, if_pos hcm]
      nlinarith
    · have := hpt.2 (Bool.not_eq_true _ ▸ hcm : c.maximize = false)
      rw [if_neg hcm, if_neg hcm]
      nlinarith
  · rcases dominatesGo_exists_strict d o criteria false hdom with h0 | hstrict
    · exact absurd h0 (by simp)
    obtain ⟨c, hcmem, vi, vj, hvi, hvj, hs⟩ := hstrict
    refine ⟨c, hcmem, ?_⟩
    obtain ⟨vd, hvd1, hvd2, hvd3⟩ := hvd c hcmem
    obtain ⟨vo, hvo1, hvo2, hvo3⟩ := hvo c hcmem
    rw [hvd1] at hvi
    rw [hvo1] at hvj
    obtain rfl : vd = vi := by injection hvi
    obtain rfl : vo = vj := by injection hvj
    rw [criterionScore_of_getAssoc hvo1 hvo2 hvo3,
      criterionScore_of_getAssoc hvd1 hvd2 hvd3]
    have hwc := hw c hcmem
    rcases hs with ⟨hmax, hlt⟩ | ⟨hmin, hlt⟩
    · rw [if_pos hmax, if_pos hmax]; nlinarith
    · rw [if_neg (by simp [hmin]), if_neg (by simp [hmin])]; nlinarith

/-- The head of `score_options` is the strict-majorant option when one
exists among the scored candidates. -/
theorem head_scoreOptions_eq (criteria : List Criterion)
    (cands : List OptionData) (d : OptionData) (hd : d ∈ cands)
    (hmax : ∀ o ∈ cands, o ≠ d →
      scoreOption criteria o true < scoreOption criteria d true) :
    (scoreOptions criteria cands true).head?.map ScoredOption.option = some d := by
  unfold scoreOptions
  have hperm := List.perm_insertionSort scoredGe
    (cands.map fun o => ScoredOption.mk o (scoreOption criteria o true))
  have hsorted := List.sorted_insertionSort scoredGe
    (cands.map fun o => ScoredOption.mk o (scoreOption criteria o true))
  have hdl : ScoredOption.mk d (scoreOption criteria d true) ∈
      cands.map fun o => ScoredOption.mk o (scoreOption criteria o true) :=
    List.mem_map_of_mem _ hd
  rcases heq : (cands.map fun o =>
      ScoredOption.mk o (scoreOption criteria o true)).insertionSort scoredGe
    with _ | ⟨h0, t⟩
  · rw [heq] at hperm
    exact absurd (hperm.symm.subset hdl) (by simp)
  · rw [heq] at hperm hsorted
    have hh0 : h0 ∈ cands.map fun o =>
        ScoredOption.mk o (scoreOption criteria o true) :=
      hperm.subset (List.mem_cons_self _ _)
    obtain ⟨o0, ho0, ho0eq⟩ := List.mem_map.mp hh0
    have hdmem := hperm.symm.subset hdl
    have hscore : scoreOption criteria d true ≤ h0.total_score := by
      rcases List.mem_cons.mp hdmem with hhd | hht
      · rw [← hhd]
      · exact (List.pairwise_cons.mp hsorted).1 _ hht
    by_cases ho0d : o0 = d
    · simp [← ho0eq, ho0d]
    · have hlt := hmax o0 ho0 ho0d
      rw [← ho0eq] at hscore
      simp only at hscore
      linarith

theorem getD_set_ne_bool (l : List Bool) (i j : Nat) (b dflt : Bool)
    (h : i ≠ j) : (l.set i b).getD j dflt = l.getD j dflt := by
  rw [List.getD_eq_getElem?_getD, List.getD_eq_getElem?_getD,
    List.getElem?_set_ne h]

/-- The inner `for j` loop never clears the keep bit of an option that no
other option dominates. -/
theorem paretoInnerStep_keep_id (criteria : List Criterion)
    (options : List OptionData) (i id : Nat)
    (hno : dominates criteria (options.getD i []) (options.getD id []) = false) :
    ∀ (js : List Nat) (keep : List Bool), keep.getD id true = true →
      (js.foldl (paretoInnerStep criteria options i) keep).getD id true = true := by
  intro js
  induction js with
  | nil => intro keep h; exact h
  | cons j js ih =>
      intro keep h
      apply ih
      unfold paretoInnerStep
      split_ifs with h1 h2 h3
      · exact h
      · exact h
      · by_cases hji : j = id
        · subst hji
          rw [hno] at h3
          exact absurd h3 (by simp)
        · rw [getD_set_ne_bool keep j id false true hji]
          exact h
      · exact h

/-- The outer `for i` loop never clears the keep bit of an option that no
other option dominates. -/
theorem paretoOuterStep_keep_id (criteria : List Criterion)
    (options : List OptionData) (id : Nat)
    (hno : ∀ i, dominates criteria (options.getD i [])
      (options.getD id []) = false) :
    ∀ (is : List Nat) (keep : List Bool), keep.getD id true = true →
      (is.foldl (paretoOuterStep criteria options) keep).getD id true = true := by
  intro is
  induction is with
  | nil => intro keep h; exact h
  | cons i is ih =>
      intro keep h
      apply ih
      unfold paretoOuterStep
      split_ifs with h1
      · exact h
      · exact paretoInnerStep_keep_id criteria options i id (hno i) _ keep h

/-- An option that nothing dominates survives `_pareto_filter`. -/
theorem paretoFilter_mem_of_undominated (criteria : List Criterion)
    (options : List OptionData) (id : Nat) (d : OptionData)
    (hid : options[id]? = some d)
    (hno : ∀ i, dominates criteria (options.getD i []) d = false) :
    id ∈ paretoFilter criteria options := by
  have hlen : id < options.length := by
    rcases List.getElem?_eq_some_iff.mp hid with ⟨hh, _⟩
    exact hh
  have hgd : options.getD id [] = d := by
    rw [List.getD_eq_getElem?_getD, hid]
    rfl
  unfold paretoFilter
  simp only []
  split_ifs with h
  · exact List.mem_range.mpr hlen
  · refine List.mem_filter.mpr ⟨List.mem_range.mpr hlen, ?_⟩
    have hrep : (List.replicate options.length true).getD id true = true := by
      rcases hre : (List.replicate options.length true)[id]? with _ | b
      · rw [List.getD_eq_getElem?_getD, hre]; rfl
      · rw [List.getD_eq_getElem?_getD, hre]
        have := List.eq_of_mem_replicate (List.getElem?_mem hre)
        simp [this]
    have := paretoOuterStep_keep_id criteria options id
      (by rw [hgd]; exact hno) (List.range options.length)
      (List.replicate options.length true) hrep
    simpa using this

/-- Every scored candidate is one of the original options. -/
theorem decisionCandidates_subset (criteria : List Criterion)
    (options : List OptionData) (ep : Bool) :
    ∀ o ∈ decisionCandidates criteria options ep, o ∈ options := by
  unfold decisionCandidates
  split_ifs with h
  · intro o ho
    obtain ⟨i, _, hio⟩ := List.mem_filterMap.mp ho
    exact List.getElem?_mem hio
  · intro o ho
    exact ho

/-- An option that nothing dominates is among the scored candidates, with or
without the Pareto pre-filter. -/
theorem mem_decisionCandidates (criteria : List Criterion)
    (options : List OptionData) (d : OptionData) (ep : Bool)
    (hd : d ∈ options)
    (hno : ∀ i, dominates criteria (options.getD i []) d = false) :
    d ∈ decisionCandidates criteria options ep := by
  unfold decisionCandidates
  split_ifs with h
  · obtain ⟨id, hid⟩ := List.mem_iff_getElem?.mp hd
    exact List.mem_filterMap.mpr
      ⟨id, paretoFilter_mem_of_undominated criteria options id d hid hno, hid⟩
  · exact hd

/-- C5 (amended).  When a unique dominant option exists **and** every
option's value for every criterion is known and lies in `[0, 1]` (where the
placeholder normalization is the identity) **and** every criterion weight is
positive, the Pareto pre-filter does not change the winner: the dominant
option is rank 1 both with and without the filter.  Without the bracketed
conditions the claim fails (`pareto_winner_counterexample`): a value above 1
is normalized to `value/100`, so a dominated option can outscore its
dominator, and the filter — which compares raw values — then changes the
winner. -/
theorem pareto_preserves_winner (criteria : List Criterion)
    (options : List OptionData) (d : OptionData) (hd : d ∈ options)
    (hvals : ∀ o ∈ options, ∀ c ∈ criteria,
      ∃ v, getAssoc o c.name = some v ∧ 0 ≤ v ∧ v ≤ 1)
    (hw : ∀ c ∈ criteria, 0 < c.weight)
    (hdom : ∀ o ∈ options, o ≠ d → dominates criteria d o = true) :
    decisionWinner criteria options true = some d ∧
      decisionWinner criteria options false = some d := by
  have hno : ∀ i, dominates criteria (options.getD i []) d = false := by
    intro i
    by_cases hi : i < options.length
    · have hmem : options.getD i [] ∈ options := by
        rw [List.getD_eq_getElem?_getD, List.getElem?_eq_getElem hi]
        exact List.getElem_mem hi
      by_cases heq : options.getD i [] = d
      · rw [heq]
        exact dominates_self criteria d
      · exact dominates_asymm criteria d _ (hdom _ hmem heq)
    · rw [List.getD_eq_getElem?_getD, List.getElem?_eq_none (by omega)]
      exact dominates_nil_left criteria d
  have key : ∀ ep, decisionWinner criteria options ep = some d := by
    intro ep
    unfold decisionWinner
    apply head_scoreOptions_eq
    · exact mem_decisionCandidates criteria options d ep hd hno
    · intro o ho hne
      have homem := decisionCandidates_subset criteria options ep o ho
      exact scoreOption_lt_of_dominates criteria d o (hvals d hd)
        (hvals o homem) hw (hdom o homem hne)
  exact ⟨key true, key false⟩

theorem pareto_preserves_winner_witness :
    decisionWinner [⟨"a", 1/2, true, none⟩, ⟨"b", 1/2, true, none⟩]
        [[("a", 1), ("b", 1)], [("a", 1/2), ("b", 1/2)], [("a", 0), ("b", 0)]]
        true = some [("a", 1), ("b", 1)] ∧
      decisionWinner [⟨"a", 1/2, true, none⟩, ⟨"b", 1/2, true, none⟩]
        [[("a", 1), ("b", 1)], [("a", 1/2), ("b", 1/2)], [("a", 0), ("b", 0)]]
        false = some [("a", 1), ("b", 1)] :=
  pareto_preserves_winner
    [⟨"a", 1/2, true, none⟩, ⟨"b", 1/2, true, none⟩]
    [[("a", 1), ("b", 1)], [("a", 1/2), ("b", 1/2)], [("a", 0), ("b", 0)]]
    [("a", 1), ("b", 1)]
    (by simp)
    (by
      intro o ho c hc
      fin_cases ho <;> fin_cases hc <;> exact ⟨_, rfl, by norm_num, by norm_num⟩)
    (by intro c hc; fin_cases hc <;> norm_num)
    (by
      intro o ho hne
      fin_cases ho
      · exact absurd rfl hne
      · norm_num [dominates, dominatesGo, getAssoc]
      · norm_num [dominates, dominatesGo, getAssoc])

/-- The criteria of the C5 counterexample: two maximize criteria of equal
weight. -/
def cexCriteria : List Criterion :=
  [⟨"a", 1/2, true, none⟩, ⟨"b", 1/2, true, none⟩]

/-- The unique dominant option of the C5 counterexample (raw values 1.5). -/
def cexD : OptionData := [("a", 3/2), ("b", 3/2)]

/-- A dominated option with raw values 1 (normalized score 1). -/
def cexO : OptionData := [("a", 1), ("b", 1)]

/-- A dominated option with raw values 0.5. -/
def cexP : OptionData := [("a", 1/2), ("b", 1/2)]

/-- C5 counterexample.  `cexD` (values 1.5/1.5) is the unique dominant
option: it dominates both others, and neither other option dominates it.
Yet with the Pareto filter enabled the winner is `cexD` (the only survivor)
while without the filter the winner is `cexO`, because a raw value of 1.5 is
normalized to 0.015 while a raw value of 1 is normalized to 1.  The filter
therefore changes the winner even though a unique dominant option exists. -/
theorem pareto_winner_counterexample :
    dominates cexCriteria cexD cexO = true ∧
    dominates cexCriteria cexD cexP = true ∧
    dominates cexCriteria cexO cexD = false ∧
    dominates cexCriteria cexP cexD = false ∧
    dominates cexCriteria cexP cexO = false ∧
    decisionWinner cexCriteria [cexD, cexO, cexP] true = some cexD ∧
    decisionWinner cexCriteria [cexD, cexO, cexP] false = some cexO ∧
    cexD ≠ cexO := by
  refine ⟨?_, ?_, ?_, ?_, ?_, ?_, ?_, ?_⟩
  · norm_num [dominates, dominatesGo, cexCriteria, cexD, cexO, getAssoc]
  · norm_num [dominates, dominatesGo, cexCriteria, cexD, cexP, getAssoc]
  · norm_num [dominates, dominatesGo, cexCriteria, cexD, cexO, getAssoc]
  · norm_num [dominates, dominatesGo, cexCriteria, cexD, cexP, getAssoc]
  · norm_num [dominates, dominatesGo, cexCriteria, cexP, cexO, getAssoc]
  · norm_num [decisionWinner, decisionCandidates, scoreOptions, scoreOption,
      criterionScore, normalizeValue, paretoFilter, paretoOuterStep,
      paretoInnerStep, dominates, dominatesGo, cexCriteria, cexD, cexO, cexP,
      getAssoc, List.insertionSort, List.orderedInsert, scoredGe, min_def,
      List.range_succ]
  · norm_num [decisionWinner, decisionCandidates, scoreOptions, scoreOption,
      criterionScore, normalizeValue, cexCriteria, cexD, cexO, cexP, getAssoc,
      List.insertionSort, List.orderedInsert, scoredGe, min_def]
  · norm_num [cexD, cexO]

/-! ## Planner plan post-processing (`agent_core/planner.py`) -/

/-- `PlanStepKind`. -/
inductive PlanStepKind where
  | think
  | tool
  | retrieve
  | decide
  | explain
  | finalize
deriving DecidableEq, Repr

/-- `PlanStepModel` (the `params` payload plays no role in trimming or
validation and is omitted). -/
structure PlanStep where
  kind : PlanStepKind
  name : Option String := none
  tool : Option String := none
deriving DecidableEq, Repr

/-- `PlannerConfig`. -/
structure PlannerConfig where
  max_steps : Nat := 8
  enforce_allowed_tools : Bool := true
  require_finalize : Bool := true
deriving DecidableEq, Repr

/-- The finalize step `_post_validate` appends. -/
def finalizeStep : PlanStep := { kind := PlanStepKind.finalize, name := some "finalize" }

/-- `Planner._trim_and_filter`: truncate to `max_steps`, then (when
enforcement is on and the profile's allow-list is non-empty) drop tool steps
whose tool is missing, not allow-listed, or unknown to the registry
(`registryHas` embeds `self.tools.has_tool`). -/
def trimAndFilter (cfg : PlannerConfig) (allowedTools : List String)
    (registryHas : String → Bool) (steps : List PlanStep) : List PlanStep :=
  let steps := steps.take cfg.max_steps
  if cfg.enforce_allowed_tools && !allowedTools.isEmpty then
    steps.filter fun s =>
      if s.kind = PlanStepKind.tool then
        match s.tool with
        | none => false
        | some t => t ∈ allowedTools && registryHas t
      else true
  else steps

/-- `Planner._post_validate`: when `require_finalize` is on, append one
finalize step unless the plan already ends in one; an empty plan becomes the
single finalize step. -/
def postValidate (cfg : PlannerConfig) (steps : List PlanStep) : List PlanStep :=
  let steps :=
    if cfg.require_finalize then
      match steps.getLast? with
      | none => steps ++ [finalizeStep]
      | some s =>
          if s.kind = PlanStepKind.finalize then steps else steps ++ [finalizeStep]
    else steps
  if steps.isEmpty then [finalizeStep] else steps

/-- `Planner.plan` on a successfully parsed plan: `_trim_and_filter` then
`_post_validate`. -/
def processPlan (cfg : PlannerConfig) (allowedTools : List String)
    (registryHas : String → Bool) (steps : List PlanStep) : List PlanStep :=
  postValidate cfg (trimAndFilter cfg allowedTools registryHas steps)

theorem length_trimAndFilter_le (cfg : PlannerConfig) (allowedTools : List String)
    (registryHas : String → Bool) (steps : List PlanStep) :
    (trimAndFilter cfg allowedTools registryHas steps).length ≤ cfg.max_steps := by
  unfold trimAndFilter
  simp only []
  split_ifs
  · exact le_trans (List.length_filter_le _ _) (by simp [List.length_take])
  · simp [List.length_take]

/-- With `require_finalize` on, `_post_validate` returns the plan unchanged
when it already ends in finalize and otherwise appends one finalize step. -/
theorem postValidate_eq (cfg : PlannerConfig) (steps : List PlanStep)
    (hreq : cfg.require_finalize = true) :
    postValidate cfg steps =
      if steps.getLast?.map PlanStep.kind = some PlanStepKind.finalize then steps
      else steps ++ [finalizeStep] := by
  unfold postValidate
  rw [if_pos hreq]
  rcases hlast : steps.getLast? with _ | st
  · obtain rfl : steps = [] := List.getLast?_eq_none_iff.mp hlast
    simp
  · have hne : steps ≠ [] := by rintro rfl; simp at hlast
    simp only [hlast, Option.map_some]
    by_cases hfin : st.kind = PlanStepKind.finalize
    · simp [hfin, List.isEmpty_iff, hne]
    · simp [hfin, List.isEmpty_iff]

/-- C3 (amended).  With `require_finalize` on (the default), every processed
plan is non-empty and ends in a finalize step; a trimmed plan that already
ends in finalize is returned unchanged and otherwise exactly one finalize
step is appended (an empty plan becomes the single finalize step); hence the
returned plan has at most `max_steps + 1` steps — not `max_steps`, because
the finalize step is appended **after** truncation
(`processPlan_length_counterexample`). -/
theorem processPlan_finalize_and_bound (cfg : PlannerConfig)
    (allowedTools : List String) (registryHas : String → Bool)
    (steps : List PlanStep) (hreq : cfg.require_finalize = true) :
    processPlan cfg allowedTools registryHas steps ≠ [] ∧
    (∃ last, (processPlan cfg allowedTools registryHas steps).getLast? = some last ∧
      last.kind = PlanStepKind.finalize) ∧
    (processPlan cfg allowedTools registryHas steps =
        trimAndFilter cfg allowedTools registryHas steps ∨
      processPlan cfg allowedTools registryHas steps =
        trimAndFilter cfg allowedTools registryHas steps ++ [finalizeStep]) ∧
    (processPlan cfg allowedTools registryHas steps).length ≤ cfg.max_steps + 1 := by
  have hlen := length_trimAndFilter_le cfg allowedTools registryHas steps
  unfold processPlan
  rw [postValidate_eq cfg _ hreq]
  by_cases hfin : (trimAndFilter cfg allowedTools registryHas
      steps).getLast?.map PlanStep.kind = some PlanStepKind.finalize
  · rw [if_pos hfin]
    rcases hl : (trimAndFilter cfg allowedTools registryHas steps).getLast?
      with _ | st
    · rw [hl] at hfin; simp at hfin
    · rw [hl] at hfin
      have hst : st.kind = PlanStepKind.finalize := by
        simpa using hfin
      have hne : trimAndFilter cfg allowedTools registryHas steps ≠ [] := by
        rintro h; rw [h] at hl; simp at hl
      exact ⟨hne, ⟨st, rfl, hst⟩, Or.inl rfl, by omega⟩
  · rw [if_neg hfin]
    refine ⟨by simp, ⟨finalizeStep, ?_, rfl⟩, Or.inr rfl, ?_⟩
    · rw [List.getLast?_concat]
    · simp only [List.length_append, List.length_singleton]
      omega

/-- C3 counterexample.  With `max_steps = 2`, a parsed plan of three think
steps is truncated to two and then gets a finalize step appended, so the
returned plan has 3 > `max_steps` steps: the claim "the returned plan has at
most max-steps steps" is false. -/
theorem processPlan_length_counterexample :
    processPlan { max_steps := 2, enforce_allowed_tools := true,
                  require_finalize := true } [] (fun _ => false)
      [{ kind := PlanStepKind.think }, { kind := PlanStepKind.think },
        { kind := PlanStepKind.think }] =
      [{ kind := PlanStepKind.think }, { kind := PlanStepKind.think },
        finalizeStep] ∧
    ¬ ([{ kind := PlanStepKind.think }, { kind := PlanStepKind.think },
        (finalizeStep : PlanStep)].length ≤ 2) := by
  constructor
  · rfl
  · simp

theorem processPlan_finalize_and_bound_witness :
    processPlan ⟨2, true, true⟩ [] (fun _ => false)
        [{ kind := PlanStepKind.think }] ≠ [] ∧
    (∃ last, (processPlan ⟨2, true, true⟩ [] (fun _ => false)
        [{ kind := PlanStepKind.think }]).getLast? = some last ∧
      last.kind = PlanStepKind.finalize) ∧
    (processPlan ⟨2, true, true⟩ [] (fun _ => false)
        [{ kind := PlanStepKind.think }] =
        trimAndFilter ⟨2, true, true⟩ [] (fun _ => false)
          [{ kind := PlanStepKind.think }] ∨
      processPlan ⟨2, true, true⟩ [] (fun _ => false)
          [{ kind := PlanStepKind.think }] =
        trimAndFilter ⟨2, true, true⟩ [] (fun _ => false)
          [{ kind := PlanStepKind.think }] ++ [finalizeStep]) ∧
    (processPlan ⟨2, true, true⟩ [] (fun _ => false)
        [{ kind := PlanStepKind.think }]).length ≤
      (⟨2, true, true⟩ : PlannerConfig).max_steps + 1 :=
  processPlan_finalize_and_bound ⟨2, true, true⟩ [] (fun _ => false)
    [{ kind := PlanStepKind.think }] rfl

/-! ## Circuit breaker (`tools/price_compare_tool.py`)

The breaker state is `(_cb_failures, _cb_open_until)`; `cbCall` is one
invocation of `PriceCompareTool.call`, reduced to its breaker effect.  The
monotonic clock reading at the call is the parameter `now`; whether all
engine attempts of the call fail is the parameter `engineOk` (the engine,
its timeout and the retry loop are I/O).  The outcome `circuitOpen` is the
early return that skips the engine entirely. -/

structure CBConfig where
  threshold : Nat
  cooldown : ℚ
deriving DecidableEq

structure CBState where
  failures : Nat
  openUntil : ℚ
deriving DecidableEq

inductive CBOutcome where
  | circuitOpen
  | success
  | engineFailed
deriving DecidableEq, Repr

/-- `PriceCompareTool._circuit_open`: `time.monotonic() < self._cb_open_until`. -/
def circuitIsOpen (s : CBState) (now : ℚ) : Bool := decide (now < s.openUntil)

/-- One `PriceCompareTool.call`: fail fast if the circuit is open; on
success `_cb_record_success` resets the state; when every attempt failed,
`_cb_record_failure` bumps the count (capped at threshold + 1) and
`_cb_maybe_open` opens the circuit for `cooldown` once the count reaches the
threshold. -/
def cbCall (cfg : CBConfig) (s : CBState) (now : ℚ) (engineOk : Bool) :
    CBState × CBOutcome :=
  if circuitIsOpen s now then (s, CBOutcome.circuitOpen)
  else if engineOk then ({ failures := 0, openUntil := 0 }, CBOutcome.success)
  else
    let f := min (s.failures + 1) (cfg.threshold + 1)
    ({ failures := f,
       openUntil := if cfg.threshold ≤ f then now + cfg.cooldown else s.openUntil },
      CBOutcome.engineFailed)

/-- A run of consecutive all-attempts-failed calls at the given clock
readings. -/
def cbFailSeq (cfg : CBConfig) : CBState → List ℚ → CBState
  | s, [] => s
  | s, t :: ts => cbFailSeq cfg (cbCall cfg s t false).1 ts

theorem cbFailSeq_run (cfg : CBConfig) :
    ∀ (ts : List ℚ) (k : Nat), (∀ t ∈ ts, 0 ≤ t) → ts ≠ [] →
      k + ts.length = cfg.threshold →
      ∀ h : ts ≠ [],
        cbFailSeq cfg ⟨k, 0⟩ ts =
          ⟨cfg.threshold, ts.getLast h + cfg.cooldown⟩ := by
  intro ts
  induction ts with
  | nil => intro k _ hne; exact absurd rfl hne
  | cons t ts ih =>
      intro k hpos _ hcount h
      have hopen : circuitIsOpen ⟨k, 0⟩ t = false := by
        simp only [circuitIsOpen, decide_eq_false_iff_not, not_lt]
        exact hpos t (List.mem_cons_self _ _)
      rcases ts with _ | ⟨t2, ts⟩
      · have hk : k + 1 = cfg.threshold := by simpa using hcount
        show cbFailSeq cfg (cbCall cfg ⟨k, 0⟩ t false).1 [] = _
        have hstep : (cbCall cfg ⟨k, 0⟩ t false).1 =
            ⟨cfg.threshold, t + cfg.cooldown⟩ := by
          unfold cbCall
          rw [hopen]
          have hmin : min (k + 1) (cfg.threshold + 1) = cfg.threshold := by omega
          simp [hmin]
        rw [hstep]
        simp [cbFailSeq, List.getLast]
      · have hcount2 : (k + 1) + (t2 :: ts).length = cfg.threshold := by
          simp only [List.length_cons] at hcount ⊢
          omega
        have hstep : (cbCall cfg ⟨k, 0⟩ t false).1 = ⟨k + 1, 0⟩ := by
          have hmin : min (k + 1) (cfg.threshold + 1) = k + 1 := by
            simp only [List.length_cons] at hcount2
            omega
          have hlt : ¬ cfg.threshold ≤ k + 1 := by
            simp only [List.length_cons] at hcount2
            omega
          unfold cbCall
          rw [hopen]
          simp [hmin, hlt]
        have hrest := ih (k + 1)
          (fun x hx => hpos x (List.mem_cons_of_mem _ hx)) (by simp) hcount2
          (by simp)
        show cbFailSeq cfg (cbCall cfg ⟨k, 0⟩ t false).1 (t2 :: ts) = _
        rw [hstep, hrest]
        rfl

/-- C7.  After `threshold`-many consecutive all-attempts-failed calls
(starting from the reset state, at non-negative clock readings), the breaker
is open until `cooldown` past the last failure: every call made strictly
before that instant returns the circuit-open outcome without touching the
state or the engine; a call at or after that instant is attempted (its
outcome is never `circuitOpen`); and a successful attempted call resets the
consecutive-failure count to zero. -/
theorem circuit_breaker_spec (cfg : CBConfig) (ts : List ℚ)
    (hpos : ∀ t ∈ ts, 0 ≤ t) (hne : ts ≠ [])
    (hcount : ts.length = cfg.threshold) :
    cbFailSeq cfg ⟨0, 0⟩ ts = ⟨cfg.threshold, ts.getLast hne + cfg.cooldown⟩ ∧
    (∀ now engineOk, now < ts.getLast hne + cfg.cooldown →
      cbCall cfg (cbFailSeq cfg ⟨0, 0⟩ ts) now engineOk =
        (cbFailSeq cfg ⟨0, 0⟩ ts, CBOutcome.circuitOpen)) ∧
    (∀ now engineOk, ts.getLast hne + cfg.cooldown ≤ now →
      (cbCall cfg (cbFailSeq cfg ⟨0, 0⟩ ts) now engineOk).2 ≠
        CBOutcome.circuitOpen) ∧
    (∀ now, ts.getLast hne + cfg.cooldown ≤ now →
      (cbCall cfg (cbFailSeq cfg ⟨0, 0⟩ ts) now true).1.failures = 0) := by
  have hrun := cbFailSeq_run cfg ts 0 hpos hne (by simpa using hcount) hne
  refine ⟨hrun, ?_, ?_, ?_⟩
  · intro now engineOk hlt
    rw [hrun]
    unfold cbCall
    rw [if_pos (by simp [circuitIsOpen]; exact hlt)]
  · intro now engineOk hge
    rw [hrun]
    unfold cbCall
    rw [if_neg (by simp [circuitIsOpen]; exact hge)]
    split_ifs <;> simp
  · intro now hge
    rw [hrun]
    unfold cbCall
    rw [if_neg (by simp [circuitIsOpen]; exact hge)]
    simp

theorem circuit_breaker_spec_witness :
    cbFailSeq ⟨2, 30⟩ ⟨0, 0⟩ [1, 2] = ⟨2, 2 + 30⟩ ∧
    (∀ now engineOk, now < [(1:ℚ), 2].getLast (by simp) + 30 →
      cbCall ⟨2, 30⟩ (cbFailSeq ⟨2, 30⟩ ⟨0, 0⟩ [1, 2]) now engineOk =
        (cbFailSeq ⟨2, 30⟩ ⟨0, 0⟩ [1, 2], CBOutcome.circuitOpen)) ∧
    (∀ now engineOk, [(1:ℚ), 2].getLast (by simp) + 30 ≤ now →
      (cbCall ⟨2, 30⟩ (cbFailSeq ⟨2, 30⟩ ⟨0, 0⟩ [1, 2]) now engineOk).2 ≠
        CBOutcome.circuitOpen) ∧
    (∀ now, [(1:ℚ), 2].getLast (by simp) + 30 ≤ now →
      (cbCall ⟨2, 30⟩ (cbFailSeq ⟨2, 30⟩ ⟨0, 0⟩ [1, 2]) now true).1.failures = 0) := by
  have h := circuit_breaker_spec ⟨2, 30⟩ [1, 2]
    (by intro t ht; simp at ht; rcases ht with rfl | rfl <;> norm_num)
    (by simp) (by simp)
  simpa using h

/-! ## Agent execution state (`agent_core/models.py`)

`AgentState` keeps every pydantic field; `Any`-valued payloads (facts,
metadata values, outputs, log entries) are embedded as strings /
string maps, which the verified operations only store and never inspect. -/

structure AgentState where
  session_id : String
  query : String
  trace_id : Option String
  facts : List (String × String)
  context : Option (List (String × String))
  metadata : List (String × String)
  thoughts : List String
  actions : List String
  search_nodes : List String
  log : List String
  errors : List String
  budget_token : Int
  spent_token : Int
  step_index : Nat
  current_node : Option String
  active_tool : Option String
  done : Bool
  halted : Bool
  output : Option (List (String × String))
deriving DecidableEq

/-- `new_agent_state`. -/
def newAgentState (session_id query : String) (budget_token : Int)
    (context : Option (List (String × String))) (trace_id : Option String) :
    AgentState :=
  { session_id := session_id, query := query, trace_id := trace_id,
    facts := [], context := context, metadata := [], thoughts := [],
    actions := [], search_nodes := [], log := [], errors := [],
    budget_token := budget_token, spent_token := 0, step_index := 0,
    current_node := none, active_tool := none, done := false,
    halted := false, output := none }

/-- `AgentState.add_log` (the embedded entry is the rendered `StepLog`). -/
def AgentState.addLog (s : AgentState) (entry : String) : AgentState :=
  { s with log := s.log ++ [entry] }

/-- `AgentState.mark_done`. -/
def AgentState.markDone (s : AgentState) (out : List (String × String)) :
    AgentState :=
  { s with output := some out, done := true }

/-- `AgentState.halt`: set the halted flag, append the reason to the error
list, record it under `metadata["halt_reason"]`, and set the output only
when a partial output is supplied. -/
def AgentState.halt (s : AgentState) (reason : String)
    (output : Option (List (String × String))) : AgentState :=
  { s with halted := true,
           errors := s.errors ++ [reason],
           metadata := setAssoc s.metadata "halt_reason" reason,
           output := match output with
             | some o => some o
             | none => s.output }

/-- `AgentState.use_tokens`: add to `spent_token`; when a positive budget is
exceeded, set the halted flag and append `"token_budget_exceeded"`. -/
def AgentState.useTokens (s : AgentState) (n : Int) : AgentState :=
  let s := { s with spent_token := s.spent_token + n }
  if 0 < s.budget_token ∧ s.budget_token < s.spent_token then
    { s with halted := true, errors := s.errors ++ ["token_budget_exceeded"] }
  else s

/-- `AgentState.next_step`. -/
def AgentState.nextStep (s : AgentState) (node : Option String) : AgentState :=
  { s with step_index := s.step_index + 1,
           current_node := match node with
             | some n => some n
             | none => s.current_node }

/-- The state's total operations (spec §4.1). -/
inductive AgentOp where
  | addLog (entry : String)
  | useTokens (n : Int)
  | markDone (out : List (String × String))
  | halt (reason : String) (out : Option (List (String × String)))
  | nextStep (node : Option String)

def applyOp (s : AgentState) : AgentOp → AgentState
  | AgentOp.addLog e => s.addLog e
  | AgentOp.useTokens n => s.useTokens n
  | AgentOp.markDone out => s.markDone out
  | AgentOp.halt r out => s.halt r out
  | AgentOp.nextStep node => s.nextStep node

def runOps (s : AgentState) (ops : List AgentOp) : AgentState :=
  ops.foldl applyOp s

theorem budget_token_applyOp (s : AgentState) (op : AgentOp) :
    (applyOp s op).budget_token = s.budget_token := by
  cases op <;>
    simp only [applyOp, AgentState.addLog, AgentState.useTokens,
      AgentState.markDone, AgentState.halt, AgentState.nextStep] <;>
    split_ifs <;> rfl

theorem invariant_applyOp (s : AgentState) (op : AgentOp)
    (hb : 0 < s.budget_token)
    (hinv : s.halted = false → s.spent_token ≤ s.budget_token) :
    (applyOp s op).halted = false →
      (applyOp s op).spent_token ≤ (applyOp s op).budget_token := by
  cases op with
  | useTokens n =>
      intro hh
      simp only [applyOp, AgentState.useTokens] at hh ⊢
      by_cases hcond : 0 < s.budget_token ∧ s.budget_token < s.spent_token + n
      · rw [if_pos hcond] at hh
        simp at hh
      · rw [if_neg hcond] at hh ⊢
        push_neg at hcond
        simpa using hcond hb
  | addLog e => intro hh; exact hinv (by simpa [applyOp, AgentState.addLog] using hh)
  | markDone out => intro hh; exact hinv (by simpa [applyOp, AgentState.markDone] using hh)
  | halt r out => intro hh; simp [applyOp, AgentState.halt] at hh
  | nextStep node => intro hh; exact hinv (by simpa [applyOp, AgentState.nextStep] using hh)

/-- C9 (amended).  For every state with a **positive** token budget that
satisfies "not halted → spent ≤ budget", every sequence of the state's total
operations preserves it: whenever the resulting state is not halted, its
spent tokens are at most its budget (recording usage past the budget always
flips the halted flag).  With budget 0 — the field default — enforcement is
disabled and the claim fails (`token_budget_counterexample`). -/
theorem token_budget_invariant (s : AgentState) (ops : List AgentOp)
    (hb : 0 < s.budget_token)
    (hinv : s.halted = false → s.spent_token ≤ s.budget_token) :
    (runOps s ops).halted = false →
      (runOps s ops).spent_token ≤ (runOps s ops).budget_token := by
  induction ops generalizing s with
  | nil => exact hinv
  | cons op ops ih =>
      show (runOps (applyOp s op) ops).halted = false → _
      exact ih (applyOp s op) (budget_token_applyOp s op ▸ hb)
        (invariant_applyOp s op hb hinv)

theorem token_budget_invariant_witness :
    (runOps (newAgentState "s" "q" 100 none none)
        [AgentOp.useTokens 30, AgentOp.nextStep none]).spent_token ≤
      (runOps (newAgentState "s" "q" 100 none none)
        [AgentOp.useTokens 30, AgentOp.nextStep none]).budget_token :=
  token_budget_invariant (newAgentState "s" "q" 100 none none)
    [AgentOp.useTokens 30, AgentOp.nextStep none]
    (by norm_num [newAgentState])
    (fun _ => by norm_num [newAgentState])
    (by norm_num [runOps, applyOp, newAgentState, AgentState.useTokens,
      AgentState.nextStep])

/-- C9 counterexample.  With `budget_token = 0` (the `AgentState` field
default, meaning "no budget"), recording 5 tokens leaves the state unhalted
while spent (5) exceeds budget (0): the claim, quantified over **every**
execution state, is false. -/
theorem token_budget_counterexample :
    ((newAgentState "s" "q" 0 none none).useTokens 5).halted = false ∧
    ((newAgentState "s" "q" 0 none none).useTokens 5).spent_token = 5 ∧
    ((newAgentState "s" "q" 0 none none).useTokens 5).budget_token = 0 ∧
    ¬ (((newAgentState "s" "q" 0 none none).useTokens 5).spent_token ≤
        ((newAgentState "s" "q" 0 none none).useTokens 5).budget_token) := by
  norm_num [newAgentState, AgentState.useTokens]

/-- C10.  `halt(reason)` without a partial output sets the halted flag,
appends the reason to the error list and records it under
`metadata["halt_reason"]` (other metadata keys unchanged), while preserving
every other field — in particular a previously produced output, the facts
map, the token counters and the step index. -/
theorem halt_frame (s : AgentState) (reason : String) :
    (s.halt reason none).halted = true ∧
    (s.halt reason none).errors = s.errors ++ [reason] ∧
    getAssoc (s.halt reason none).metadata "halt_reason" = some reason ∧
    (∀ k, k ≠ "halt_reason" →
      getAssoc (s.halt reason none).metadata k = getAssoc s.metadata k) ∧
    (s.halt reason none).output = s.output ∧
    (s.halt reason none).facts = s.facts ∧
    (s.halt reason none).spent_token = s.spent_token ∧
    (s.halt reason none).budget_token = s.budget_token ∧
    (s.halt reason none).step_index = s.step_index ∧
    (s.halt reason none).done = s.done ∧
    (s.halt reason none).session_id = s.session_id ∧
    (s.halt reason none).query = s.query ∧
    (s.halt reason none).trace_id = s.trace_id ∧
    (s.halt reason none).context = s.context ∧
    (s.halt reason none).thoughts = s.thoughts ∧
    (s.halt reason none).actions = s.actions ∧
    (s.halt reason none).search_nodes = s.search_nodes ∧
    (s.halt reason none).log = s.log ∧
    (s.halt reason none).current_node = s.current_node ∧
    (s.halt reason none).active_tool = s.active_tool := by
  refine ⟨rfl, rfl, ?_, ?_, rfl, rfl, rfl, rfl, rfl, rfl, rfl, rfl, rfl, rfl,
    rfl, rfl, rfl, rfl, rfl, rfl⟩
  · exact getAssoc_setAssoc_self s.metadata "halt_reason" reason
  · intro k hk
    exact getAssoc_setAssoc_ne s.metadata "halt_reason" k reason hk

/-! ## Offer fusion engine (`search_core/ecommerce/price_compare.py`)

`compare` fans out to the site adapters (I/O), normalizes each raw listing,
fuses duplicates, sorts and truncates.  The embedded `compareEngine` takes
the normalized offers (the output of `_normalize_offer` over the fan-out
results) as a parameter and performs the pure fuse–sort–truncate pipeline. -/

/-- A normalized offer as `_normalize_offer` produces it (`canonical` is
flattened into `brand`/`model`/`variant`; `sources` is added by fusion and
is empty on raw offers). -/
structure Offer where
  site : String
  title : String
  price : ℚ
  url : String
  shipping : ℚ
  effective_price : ℚ
  in_stock : Bool
  seller_rating : ℚ
  warranty : String
  return_policy : String
  attributes : List (String × String)
  brand : Option String
  model : Option String
  variant : Option String
  sources : List String
deriving DecidableEq

/-- `_norm`: strip, lowercase, empty (or missing) becomes `None`. -/
def normName : Option String → Option String
  | none => none
  | some v => let s := v.trim.toLower; if s = "" then none else some s

/-- The group key of `_fuse_duplicates`. -/
def canonKey (o : Offer) : Option String × Option String × Option String :=
  (normName o.brand, normName o.model, normName o.variant)

/-- `buckets.setdefault(key, []).append(o)` in insertion order. -/
def addToBuckets
    (buckets : List ((Option String × Option String × Option String) × List Offer))
    (o : Offer) :
    List ((Option String × Option String × Option String) × List Offer) :=
  match buckets with
  | [] => [(canonKey o, [o])]
  | (k, g) :: rest =>
      if k = canonKey o then (k, g ++ [o]) :: rest
      else (k, g) :: addToBuckets rest o

/-- The representative order inside a group: ascending effective price,
ties broken by descending seller rating (`sorted(group, key=(eff, -rating))`). -/
def groupBestLe (a b : Offer) : Prop :=
  a.effective_price < b.effective_price ∨
    (a.effective_price = b.effective_price ∧ b.seller_rating ≤ a.seller_rating)

instance : DecidableRel groupBestLe := fun a b =>
  inferInstanceAs (Decidable (_ ∨ _))

def defaultOffer : Offer :=
  { site := "", title := "", price := 0, url := "", shipping := 0,
    effective_price := 0, in_stock := true, seller_rating := 0,
    warranty := "", return_policy := "", attributes := [], brand := none,
    model := none, variant := none, sources := [] }

/-- `max(x.seller_rating for x in group)` (groups are never empty). -/
def maxRating : List Offer → ℚ
  | [] => 0
  | x :: xs => xs.foldl (fun m o => max m o.seller_rating) x.seller_rating

/-- Backfill a falsy (empty) field from the first group member with a
non-empty value. -/
def backfill (current : String) (g : List Offer) (f : Offer → String) : String :=
  if current = "" then
    match g.find? fun x => decide (f x ≠ "") with
    | some x => f x
    | none => current
  else current

/-- Shallow attribute merge: `attrs.setdefault(k, v)` over the group. -/
def mergeAttrs (g : List Offer) : List (String × String) :=
  g.foldl
    (fun acc x =>
      x.attributes.foldl
        (fun acc kv =>
          if (getAssoc acc kv.1).isSome then acc else acc ++ [kv]) acc)
    []

/-- One fused offer: the lowest-effective-price representative (rating as
tie-break), widened with the group's maximum rating, backfilled
warranty/return policy, merged attributes, sorted source-site set. -/
def mergeGroup (g : List Offer) : Offer :=
  let best := (g.insertionSort groupBestLe).headD defaultOffer
  { best with
    seller_rating := maxRating g,
    warranty := backfill best.warranty g Offer.warranty,
    return_policy := backfill best.return_policy g Offer.return_policy,
    attributes := mergeAttrs g,
    sources :=
      (((g.map Offer.site).filter fun x => decide (x ≠ "")).dedup).insertionSort
        (· ≤ ·) }

/-- `_fuse_duplicates`. -/
def fuseDuplicates (offers : List Offer) : List Offer :=
  ((offers.foldl addToBuckets []).filter fun b => !b.2.isEmpty).map
    fun b => mergeGroup b.2

/-- 0/1 view of a Bool, for the Python tuple key
`(not in_stock, effective_price, -seller_rating)` (False < True). -/
def boolNat (b : Bool) : Nat := if b then 1 else 0

/-- The engine's final order: in-stock offers first, then ascending
effective price, then descending seller rating. -/
def offerLe (a b : Offer) : Prop :=
  boolNat (!a.in_stock) < boolNat (!b.in_stock) ∨
    (boolNat (!a.in_stock) = boolNat (!b.in_stock) ∧
      (a.effective_price < b.effective_price ∨
        (a.effective_price = b.effective_price ∧
          b.seller_rating ≤ a.seller_rating)))

instance : DecidableRel offerLe := fun a b =>
  inferInstanceAs (Decidable (_ ∨ _))

instance : IsTotal Offer offerLe :=
  ⟨fun a b => by
    unfold offerLe
    rcases lt_trichotomy (boolNat (!a.in_stock)) (boolNat (!b.in_stock))
      with h | h | h
    · exact Or.inl (Or.inl h)
    · rcases lt_trichotomy a.effective_price b.effective_price with h2 | h2 | h2
      · exact Or.inl (Or.inr ⟨h, Or.inl h2⟩)
      · rcases le_total b.seller_rating a.seller_rating with h3 | h3
        · exact Or.inl (Or.inr ⟨h, Or.inr ⟨h2, h3⟩⟩)
        · exact Or.inr (Or.inr ⟨h.symm, Or.inr ⟨h2.symm, h3⟩⟩)
      · exact Or.inr (Or.inr ⟨h.symm, Or.inl h2⟩)
    · exact Or.inr (Or.inl h)⟩

instance : IsTrans Offer offerLe :=
  ⟨fun a b c hab hbc => by
    unfold offerLe at hab hbc ⊢
    rcases hab with h1 | ⟨h1, h1'⟩ <;> rcases hbc with h2 | ⟨h2, h2'⟩
    · exact Or.inl (h1.trans h2)
    · exact Or.inl (h2 ▸ h1)
    · exact Or.inl (h1 ▸ h2)
    · refine Or.inr ⟨h1.trans h2, ?_⟩
      rcases h1' with h3 | ⟨h3, h3'⟩ <;> rcases h2' with h4 | ⟨h4, h4'⟩
      · exact Or.inl (h3.trans h4)
      · exact Or.inl (by linarith)
      · exact Or.inl (by linarith)
      · exact Or.inr ⟨h3.trans h4, h4'.trans h3'⟩⟩

/-- `_clamp_int`. -/
def clampInt (v lo hi : Int) : Int := max lo (min hi v)

/-- `PriceCompareEngine.compare`, reduced to its pure pipeline over the
normalized offers: empty queries short-circuit; otherwise fuse duplicates,
stable-sort by `(not in_stock, effective_price, -seller_rating)` and take
the first `clamp(top_k, 1, 50)` offers. -/
def compareEngine (query : String) (rawOffers : List Offer) (top_k : Int) :
    List Offer :=
  if query.trim = "" then []
  else
    ((fuseDuplicates rawOffers).insertionSort offerLe).take
      (clampInt top_k 1 50).toNat

/-- C8 (amended).  For every non-empty query and requested count
`top_k ≥ 1`, the engine returns at most `top_k` fused offers, sorted with
in-stock offers first, then ascending effective price, then descending
seller rating, and every returned offer is one of the fused offers.  For
`top_k ≤ 0` the engine clamps the count to 1 and can return one offer, so
the bound "at most top_k" fails there (`compare_topk_counterexample`). -/
theorem compare_sorted_truncated (query : String) (raw : List Offer)
    (top_k : Int) (hq : query.trim ≠ "") (hk : 1 ≤ top_k) :
    (compareEngine query raw top_k).length ≤ top_k.toNat ∧
    List.Sorted offerLe (compareEngine query raw top_k) ∧
    ∀ o ∈ compareEngine query raw top_k, o ∈ fuseDuplicates raw := by
  unfold compareEngine
  rw [if_neg hq]
  refine ⟨?_, ?_, ?_⟩
  · refine le_trans (List.length_take_le _ _) ?_
    unfold clampInt
    omega
  · exact List.Pairwise.sublist (List.take_sublist _ _)
      (List.sorted_insertionSort offerLe _)
  · intro o ho
    exact (List.perm_insertionSort offerLe _).subset (List.mem_of_mem_take ho)

/-- Evaluation of `String.trim` on the concrete query (the auxiliary
functions recurse on byte positions, so the two loops are unfolded once
each: no leading and no trailing whitespace). -/
theorem trim_query_eq : "iphone 15".trim = "iphone 15" := by
  have h1 : Substring.takeWhileAux "iphone 15" "iphone 15".endPos
      Char.isWhitespace ⟨0⟩ = ⟨0⟩ := by
    unfold Substring.takeWhileAux
    rw [dif_pos (by decide), if_neg (by decide)]
  have h2 : Substring.takeRightWhileAux "iphone 15" ⟨0⟩ Char.isWhitespace
      "iphone 15".endPos = "iphone 15".endPos := by
    unfold Substring.takeRightWhileAux
    rw [dif_pos (by decide), if_pos (by decide)]
  show (Substring.trim ("iphone 15").toSubstring).toString = "iphone 15"
  unfold Substring.trim String.toSubstring
  simp only [h1, h2]
  decide

/-- A concrete normalized offer for the C8 instances. -/
def cexOffer : Offer :=
  { site := "shopee", title := "iphone 15", price := 100, url := "u",
    shipping := 0, effective_price := 100, in_stock := true,
    seller_rating := 4, warranty := "12", return_policy := "7 days",
    attributes := [], brand := none, model := none,
    variant := none, sources := [] }

theorem compare_sorted_truncated_witness :
    (compareEngine "iphone 15" [cexOffer] 3).length ≤ (3 : Int).toNat ∧
    List.Sorted offerLe (compareEngine "iphone 15" [cexOffer] 3) ∧
    ∀ o ∈ compareEngine "iphone 15" [cexOffer] 3, o ∈ fuseDuplicates [cexOffer] :=
  compare_sorted_truncated "iphone 15" [cexOffer] 3
    (by rw [trim_query_eq]; decide) (by norm_num)

/-- C8 counterexample.  With `top_k = 0` the engine clamps the count to 1
and returns one offer for a one-offer input — more than the requested
count, so "at most top_k offers" fails for `top_k = 0`. -/
theorem compare_topk_counterexample :
    ¬ ((compareEngine "iphone 15" [cexOffer] 0).length ≤ 0) := by
  unfold compareEngine
  rw [if_neg (by rw [trim_query_eq]; decide)]
  decide

end SmartBuyer
